import Mathlib

/-!
Verification of the `uniplate` crate (conjure-cp/uniplate) against its
specification.

This file shallowly embeds the parts of the crate that the verified
properties speak about:

* `Tree` and its `list`/`map` operations (src/uniplate/src/tree.rs);
* the generic traversal operations `children`, `universe`, `with_children`,
  `descend`, `transform`, `rewrite` (src/uniplate/src/traits/uniplate.rs)
  and their biplate counterparts (src/uniplate/src/traits/biplate.rs);
* the built-in leaf / identity / dispatch-fallback biplate instances
  (src/uniplate/src/lib.rs `derive_unplateable` and `derive_iter`,
  uniplate-derive/src/lib.rs `_derive_identity_biplate`,
  src/uniplate/src/spez.rs `BiplateNo::spez_try_biplate`);
* the zipper and the context iterator (src/uniplate/src/zipper.rs and
  src/uniplate/src/traits/context.rs — the two files contain the same
  algorithm);
* the field-type classifier of the derive macro
  (src/uniplate-derive/src/ast/typ.rs `Type::parse`).

Modelling conventions:

* Rust `VecDeque<T>` becomes `List T`; `push_back` is appending at the end,
  `pop_front` is taking the head.
* A Rust panic inside a fallible computation is modelled with `Option`
  (`none` = panic) where the function's result is inspected by callers;
  panics inside reconstruction closures of type `Tree T -> T` (which must
  stay total to mirror the Rust `Box<dyn Fn(Tree<T>) -> T>` type) are
  modelled by returning a fixed junk value, marked by a comment.  These
  branches are unreachable for the well-shaped trees the library feeds to
  them.
* Recursive traversals whose termination rests on the (implicit) finiteness
  of the Rust data are given an explicit fuel parameter; theorems assume the
  fuel is at least the node count, which makes them statements about the
  terminating executions of the Rust code.
-/

namespace Uniplate

/-- `Tree<T>` from src/uniplate/src/tree.rs: `Zero`, `One(T)`,
`Many(VecDeque<Tree<T>>)`. -/
inductive Tree (α : Type) where
  | Zero : Tree α
  | One : α → Tree α
  | Many : List (Tree α) → Tree α

mutual

/-- The inner `flatten` function of `Tree::list` (tree.rs:56-65): pushes every
`One` leaf onto the back of the accumulator, depth first, left to right. -/
def Tree.flattenAcc {α : Type} : Tree α → List α → List α
  | .Zero, xs => xs
  | .One x, xs => xs ++ [x]
  | .Many ts, xs => Tree.flattenAccList ts xs

/-- The fold over the subtree list inside `flatten` (tree.rs:63). -/
def Tree.flattenAccList {α : Type} : List (Tree α) → List α → List α
  | [], xs => xs
  | t :: ts, xs => Tree.flattenAccList ts (Tree.flattenAcc t xs)

end

mutual

/-- The inner `recons` function of `Tree::list` (tree.rs:69-88).  It walks the
old tree, taking one element off the front of the list for each `One` leaf.
The `pop_front().unwrap()` panic on an exhausted list is modelled by `none`;
left-over elements are carried through (and, at top level, discarded) exactly
as in the source. -/
def Tree.recons {α : Type} : Tree α → List α → Option (Tree α × List α)
  | .Zero, xs => some (.Zero, xs)
  | .One _, xs =>
    match xs with
    | [] => none
    | x :: xs1 => some (.One x, xs1)
  | .Many ts, xs =>
    (Tree.reconsList ts xs).map fun (ts1, xs1) => (.Many ts1, xs1)

/-- The fold over the subtree list inside `recons` (tree.rs:77-85). -/
def Tree.reconsList {α : Type} : List (Tree α) → List α → Option (List (Tree α) × List α)
  | [], xs => some ([], xs)
  | t :: ts, xs =>
    (Tree.recons t xs).bind fun (t1, xs1) =>
      (Tree.reconsList ts xs1).map fun (ts1, xs2) => (t1 :: ts1, xs2)

end

/-- `Tree::list` (tree.rs:52-93): the flattened leaf sequence paired with the
rebuild closure `move |xs| recons(self.clone(), xs).0`. -/
def Tree.list {α : Type} (t : Tree α) : List α × (List α → Option (Tree α)) :=
  (t.flattenAcc [], fun xs => (t.recons xs).map Prod.fst)

mutual

/-- `Tree::map` (tree.rs:96-102): applies a function to every `One` leaf. -/
def Tree.map {α : Type} (op : α → α) : Tree α → Tree α
  | .Zero => .Zero
  | .One t => .One (op t)
  | .Many ts => .Many (Tree.mapList op ts)

/-- The element-wise map over the subtree list in `Tree::map`. -/
def Tree.mapList {α : Type} (op : α → α) : List (Tree α) → List (Tree α)
  | [] => []
  | t :: ts => Tree.map op t :: Tree.mapList op ts

end

/-!  ## Generic traversal operations

The trait methods are embedded as functions taking the traversal primitive
(`uniplate` / `biplate`, the only method a type must provide) as an explicit
function argument `up` / `bp`. -/

variable {α β γ : Type}

/-- `Uniplate::children` (traits/uniplate.rs:40-43): `self.uniplate().0.list().0`. -/
def children (up : α → Tree α × (Tree α → α)) (n : α) : List α :=
  ((up n).fst.list).fst

/-- `Uniplate::with_children` (traits/uniplate.rs:51-64).  The
"with_children() given an unexpected amount of children" panic is `none`. -/
def withChildren (up : α → Tree α × (Tree α → α)) (n : α) (cs : List α) : Option α :=
  let oldChildren := (up n).fst
  let ctx := (up n).snd
  let oldChildrenLst := (oldChildren.list).fst
  let rebuild := (oldChildren.list).snd
  if oldChildrenLst.length ≠ cs.length then
    none
  else
    (rebuild cs).map ctx

/-- `Biplate::children_bi` (traits/biplate.rs:84-86). -/
def childrenBi (bp : α → Tree β × (Tree β → α)) (n : α) : List β :=
  ((bp n).fst.list).fst

/-- `Biplate::with_children_bi` (traits/biplate.rs:33-46); textually the same
algorithm as `with_children`. -/
def withChildrenBi (bp : α → Tree β × (Tree β → α)) (n : α) (cs : List β) : Option α :=
  let oldChildren := (bp n).fst
  let ctx := (bp n).snd
  let oldChildrenLst := (oldChildren.list).fst
  let rebuild := (oldChildren.list).snd
  if oldChildrenLst.length ≠ cs.length then
    none
  else
    (rebuild cs).map ctx

/-- `Uniplate::descend` (traits/uniplate.rs:22-25): `ctx(children.map(op))`. -/
def descend (up : α → Tree α × (Tree α → α)) (op : α → α) (n : α) : α :=
  (up n).snd ((up n).fst.map op)

/-- `Uniplate::universe` (traits/uniplate.rs:31-37), with fuel: the node
itself first, then the universes of its children, left to right. -/
def universeF (up : α → Tree α × (Tree α → α)) : Nat → α → List α
  | 0, _ => []
  | fuel + 1, n => n :: ((children up n).map (universeF up fuel)).flatten

/-- `Uniplate::transform` (traits/uniplate.rs:67-70), with fuel:
`f(ctx(children.map(|child| child.transform(f))))`. -/
def transformF (up : α → Tree α × (Tree α → α)) : Nat → (α → α) → α → α
  | 0, _, n => n
  | fuel + 1, f, n => f ((up n).snd (((up n).fst).map (transformF up fuel f)))

/-- `Uniplate::rewrite` (traits/uniplate.rs:73-82), with fuel: children are
rewritten first, then the rule is tried once on the reconstructed node; a
successful result is returned as is. -/
def rewriteF (up : α → Tree α × (Tree α → α)) : Nat → (α → Option α) → α → α
  | 0, _, n => n
  | fuel + 1, f, n =>
    let newChildren := ((up n).fst).map (rewriteF up fuel f)
    match f ((up n).snd newChildren) with
    | none => (up n).snd newChildren
    | some m => m

/-- `universe` run with exactly enough fuel for the node, as measured by a
node-count function `w`; the canonical value of the fueled `universeF`. -/
def univAt (up : α → Tree α × (Tree α → α)) (w : α → Nat) (n : α) : List α :=
  universeF up (w n) n

/-!  ## Built-in instances -/

/-- The `Uniplate` instance generated by `derive_unplateable!`
(src/uniplate/src/lib.rs:238-243): no children, reconstructor returns a clone
of the original value. -/
def unplateableUniplate (v : α) : Tree α × (Tree α → α) :=
  (Tree.Zero, fun _ => v)

/-- The `Biplate<T> for T` instance generated by `derive_unplateable!`
(src/uniplate/src/lib.rs:245-253): the value wrapped as `Tree::One`, and a
reconstructor `move |_| val.clone()` that ignores its argument and returns
the original value. -/
def unplateableBiplate (v : α) : Tree α × (Tree α → α) :=
  (Tree.One v, fun _ => v)

/-- The `Biplate<T> for T` instance generated by the derive macro's
`_derive_identity_biplate` (uniplate-derive/src/lib.rs:526-547): the value
wrapped as `Tree::One`, and a reconstructor that extracts the replacement
leaf.  The `todo!()` on a non-`One` tree is modelled by returning the
original value (unreachable for shape-preserving callers). -/
def identityBiplate (v : α) : Tree α × (Tree α → α) :=
  (Tree.One v,
   fun t =>
     match t with
     | .One x => x
     | _ => v)

/-- The `Src == Dest` case of the dispatch fallback
`BiplateNo::spez_try_biplate` (src/uniplate/src/spez.rs:77-91).  The
type-identity transmutes are identities here; the `panic!()` on a non-`One`
tree is modelled by returning the original value. -/
def spezBiplateSame (v : α) : Tree α × (Tree α → α) :=
  (Tree.One v,
   fun t =>
     match t with
     | .One x => x
     | _ => v)

/-- The `Uniplate` instance for container types generated by `derive_iter!`
(src/uniplate/src/lib.rs:333-341): `Tree::Zero` and a reconstructor that
ignores its argument and returns a clone of the original container. -/
def vecUniplate (v : List γ) : Tree (List γ) × (Tree (List γ) → List γ) :=
  (Tree.Zero, fun _ => v)

/-!  ## Zipper and context iterator

`src/uniplate/src/zipper.rs` and the private zipper in
`src/uniplate/src/traits/context.rs` contain the same algorithm; the
embedding below serves for both.  The Rust `Vec` path stores the immediate
parent last; the Lean list stores it first. -/

/-- `PathSegment` (zipper.rs:38-55, context.rs:22-39). -/
structure PathSegment (α : Type) where
  left : List α
  right : List α
  rebuildTree : List α → Option (Tree α)
  ctx : Tree α → α

/-- `Zipper` (zipper.rs:27-36, context.rs:11-20). -/
structure Zipper (α : Type) where
  focus : α
  path : List (PathSegment α)

/-- `Zipper::new` (zipper.rs:61-66). -/
def Zipper.new (root : α) : Zipper α :=
  ⟨root, []⟩

/-- `Zipper::go_up` (zipper.rs:95-107): pop the innermost segment, rebuild the
sibling list `left ++ [focus] ++ right`, rebuild the shape tree and apply the
parent reconstructor.  Both "no parent" and a panic inside `rebuild_tree`
(impossible for segments created by `go_down`, which preserve the sibling
count) are `none`. -/
def Zipper.goUp (z : Zipper α) : Option (Zipper α) :=
  match z.path with
  | [] => none
  | seg :: rest =>
    (seg.rebuildTree (seg.left ++ [z.focus] ++ seg.right)).map fun tr =>
      { focus := seg.ctx tr, path := rest }

/-- `Zipper::go_down` (zipper.rs:110-124): uniplate the focus, list its shape,
pop the first child as the new focus, push a segment with the remaining
children on the right. -/
def Zipper.goDown (up : α → Tree α × (Tree α → α)) (z : Zipper α) : Option (Zipper α) :=
  match ((up z.focus).fst.list).fst with
  | [] => none
  | newFocus :: siblings =>
    some
      { focus := newFocus,
        path :=
          { left := [],
            right := siblings,
            rebuildTree := ((up z.focus).fst.list).snd,
            ctx := (up z.focus).snd } :: z.path }

/-- `Zipper::go_left` (zipper.rs:127-133, and identically ZipperBi::go_left at
zipper.rs:322-341): `left.pop_front()` becomes the new focus and the old focus
is `push_back`ed onto `right`. -/
def Zipper.goLeft (z : Zipper α) : Option (Zipper α) :=
  match z.path with
  | [] => none
  | seg :: rest =>
    match seg.left with
    | [] => none
    | newFocus :: ls =>
      some
        { focus := newFocus,
          path := { seg with left := ls, right := seg.right ++ [z.focus] } :: rest }

/-- `Zipper::go_right` (zipper.rs:136-142): `right.pop_front()` becomes the
new focus and the old focus is `push_back`ed onto `left`. -/
def Zipper.goRight (z : Zipper α) : Option (Zipper α) :=
  match z.path with
  | [] => none
  | seg :: rest =>
    match seg.right with
    | [] => none
    | newFocus :: rs =>
      some
        { focus := newFocus,
          path := { seg with left := seg.left ++ [z.focus], right := rs } :: rest }

/-- The loop of `Zipper::rebuild_root` / `go_to_top` (zipper.rs:84-87,
context.rs:105-108): `while self.go_up().is_some() {}` followed by returning
the focus, written as structural recursion on the path. -/
def Zipper.goToTopAux (f : α) : List (PathSegment α) → α
  | [] => f
  | seg :: rest =>
    match seg.rebuildTree (seg.left ++ [f] ++ seg.right) with
    | some tr => Zipper.goToTopAux (seg.ctx tr) rest
    | none => f

/-- `Zipper::rebuild_root` (zipper.rs:84-87). -/
def Zipper.rebuildRoot (z : Zipper α) : α :=
  Zipper.goToTopAux z.focus z.path

/-- The search loop from `ContextIter::next` (context.rs:339-347):
`while go_right fails { if go_up fails, stop }`, written as structural
recursion on the path.  `none` means the iterator is exhausted. -/
def Zipper.upRight (f : α) : List (PathSegment α) → Option (Zipper α)
  | [] => none
  | seg :: rest =>
    match seg.right with
    | r :: rs =>
      some
        { focus := r,
          path := { seg with left := seg.left ++ [f], right := rs } :: rest }
    | [] =>
      match seg.rebuildTree (seg.left ++ [f] ++ seg.right) with
      | some tr => Zipper.upRight (seg.ctx tr) rest
      | none => none

/-- `ContextIter` (context.rs:306-309). -/
structure ContextIter (α : Type) where
  zipper : Zipper α
  done : Bool

/-- `ContextIter::new` (context.rs:312-317). -/
def ContextIter.new (root : α) : ContextIter α :=
  ⟨Zipper.new root, false⟩

/-- `ContextIter::next` (context.rs:323-350): yields the current focus and a
hole function that replaces the focus in a clone of the zipper and rebuilds
to the top, then advances: down if possible, otherwise right/up; if the walk
exhausts the tree, the `done` flag is set but the current node is still
yielded. -/
def ContextIter.next (up : α → Tree α × (Tree α → α)) (it : ContextIter α) :
    Option ((α × (α → α)) × ContextIter α) :=
  if it.done then none
  else
    let node := it.zipper.focus
    let holeFn : α → α := fun x => Zipper.goToTopAux x it.zipper.path
    match Zipper.goDown up it.zipper with
    | some z => some ((node, holeFn), ⟨z, false⟩)
    | none =>
      match Zipper.upRight it.zipper.focus it.zipper.path with
      | some z => some ((node, holeFn), ⟨z, false⟩)
      | none => some ((node, holeFn), ⟨it.zipper, true⟩)

/-- The full (finite) yield sequence of the context iterator
(`Uniplate::contexts`, traits/uniplate.rs:119-121), with fuel. -/
def contextsF (up : α → Tree α × (Tree α → α)) : Nat → ContextIter α → List (α × (α → α))
  | 0, _ => []
  | fuel + 1, it =>
    match ContextIter.next up it with
    | none => []
    | some (p, it') => p :: contextsF up fuel it'

/-- Well-formedness of a path segment: its rebuild closure is the one
produced by `Tree::list` on some tree, and the sibling count matches that
tree's leaf count.  `go_down` establishes this and `go_right`/`upRight`
preserve it. -/
def SegWf (seg : PathSegment α) : Prop :=
  ∃ t0 : Tree α,
    seg.rebuildTree = (t0.list).snd ∧
      seg.left.length + (1 + seg.right.length) = ((t0.list).fst).length

/-- Every segment of the path is well-formed. -/
def PathWf (path : List (PathSegment α)) : Prop :=
  ∀ seg ∈ path, SegWf seg

/-- The nodes still to be yielded from the segments of a path: the universes
of all right siblings at every level, innermost first. -/
def pathYield (up : α → Tree α × (Tree α → α)) (w : α → Nat)
    (path : List (PathSegment α)) : List α :=
  (path.map fun seg => (seg.right.map (univAt up w)).flatten).flatten

/-!  ## A concrete instance

`RTree` mirrors the shape `Many(i32, Vec<Tree>)` of the test type in
src/uniplate/tests/zipper.rs: an integer-labelled rose tree.  `rtUp` is the
uniplate the derive macro generates for it: the single `Vec` field is
traversed through the `Vec` biplate of `derive_iter!`
(src/uniplate/src/lib.rs:267-306, the `T == F` branch), whose `todo!()`
branches on unexpected tree shapes are modelled by junk values. -/
inductive RTree where
  | node : Int → List RTree → RTree

mutual

/-- Node count of an `RTree`. -/
def RTree.size : RTree → Nat
  | .node _ cs => 1 + RTree.sizeList cs

/-- Node count of a list of `RTree`s. -/
def RTree.sizeList : List RTree → Nat
  | [] => 0
  | t :: ts => RTree.size t + RTree.sizeList ts

end

/-- The shape the `Vec<RTree>` biplate to `RTree` returns
(src/uniplate/src/lib.rs:267-286): `Zero` for an empty vector, otherwise
`Many` of the elements wrapped as `One`. -/
def vecSelfBiplateTree (cs : List RTree) : Tree RTree :=
  match cs with
  | [] => Tree.Zero
  | _ => Tree.Many (cs.map Tree.One)

/-- The reconstructor the `Vec<RTree>` biplate to `RTree` returns
(src/uniplate/src/lib.rs:269,288-302): for an empty vector it ignores its
argument; otherwise it unwraps each `One` of a `Many`.  `todo!()` branches
are modelled by junk. -/
def vecSelfBiplateCtx (cs : List RTree) : Tree RTree → List RTree :=
  match cs with
  | [] => fun _ => cs
  | _ => fun t =>
    match t with
    | Tree.Many xs =>
      xs.map fun x =>
        match x with
        | Tree.One c => c
        | _ => RTree.node 0 []   -- todo!() junk
    | _ => cs                    -- todo!() junk

/-- The derived `uniplate` for `RTree`: one field, traversed through the
`Vec` biplate; the reconstructor rebuilds the node from the first subtree of
the `Many` (the generated `x[0]`), with panics modelled by junk. -/
def rtUp : RTree → Tree RTree × (Tree RTree → RTree)
  | .node v cs =>
    (Tree.Many [vecSelfBiplateTree cs],
     fun t =>
       match t with
       | Tree.Many (t0 :: _) => RTree.node v (vecSelfBiplateCtx cs t0)
       | _ => RTree.node v cs)   -- panic!() junk

/-- A rewrite rule on `RTree` that can always be applied again to its own
output while the label is below 2: used to test the fixpoint claim about
`rewrite`. -/
def exRule : RTree → Option RTree
  | .node v cs => if v < 2 then some (.node (v + 1) cs) else none

/-- Example leaf nodes. -/
def rt1 : RTree := .node 1 []

/-- Example leaf node 2. -/
def rt2 : RTree := .node 2 []

/-- Example leaf node 3. -/
def rt3 : RTree := .node 3 []

/-- A root with three children, for the sibling-order scenarios. -/
def rt0 : RTree := .node 0 [rt1, rt2, rt3]

/-!  ## The field-type classifier of the derive macro

A model of the fragment of `syn`'s type grammar that
`Type::parse` (src/uniplate-derive/src/ast/typ.rs:58-187) inspects: a path is
a list of segments, each an identifier with optional generic arguments; every
other type shape (reference, raw pointer, slice, bare function, trait
object, array, inferred) is represented by its own constructor. -/

mutual

inductive SynType where
  | path (segs : List SynSeg) : SynType
  | reference (inner : SynType) : SynType
  | rawPointer (inner : SynType) : SynType
  | slice (inner : SynType) : SynType
  | bareFn : SynType
  | traitObject : SynType
  | array (inner : SynType) : SynType
  | infer : SynType

inductive SynSeg where
  | mk (ident : String) (arguments : SynPathArguments) : SynSeg

inductive SynPathArguments where
  | noArgs : SynPathArguments
  | angleBracketed (args : List SynGenericArgument) : SynPathArguments
  | parenthesized : SynPathArguments

inductive SynGenericArgument where
  | typeArg (t : SynType) : SynGenericArgument
  | otherArg : SynGenericArgument

end

/-- Identifier of a path segment. -/
def SynSeg.ident : SynSeg → String
  | .mk i _ => i

/-- Generic arguments of a path segment. -/
def SynSeg.arguments : SynSeg → SynPathArguments
  | .mk _ a => a

/-- Whether the type is a `syn::Type::Path` (typ.rs:61). -/
def SynType.isPathTyp : SynType → Bool
  | .path _ => true
  | _ => false

/-- The `type_str` computation (typ.rs:72-77): segment identifiers joined by
`::`. -/
def typeStr (segs : List SynSeg) : String :=
  String.intercalate "::" (segs.map SynSeg.ident)

/-- `BOX_PREFIXES` (typ.rs:53-56). -/
def boxPrefixList : List String :=
  ["::std::boxed::Box", "std::boxed::Box", "Box"]

/-- `base_path.segments.last().expect("").arguments`; `none` models the
`expect` panic on an empty path (which `syn` never produces). -/
def lastArguments (segs : List SynSeg) : Option SynPathArguments :=
  (segs.getLast?).map SynSeg.arguments

/-- Setting the last segment's arguments to `PathArguments::None`
(typ.rs:165-171). -/
def stripLastArguments : List SynSeg → List SynSeg
  | [] => []
  | [SynSeg.mk i _] => [SynSeg.mk i SynPathArguments.noArgs]
  | s :: rest => s :: stripLastArguments rest

/-- `BoxType` (typ.rs:8-10). -/
inductive BoxType where
  | box : BoxType

/-- `PlateableType` (typ.rs:235-241): wrapper and base path components. -/
structure PlateableType where
  wrapperTyp : Option (List SynSeg)
  baseTyp : List SynSeg

/-- `BoxedPlateableType` (typ.rs:198-204). -/
structure BoxedPlateableType where
  innerTyp : PlateableType
  boxTyp : BoxType

/-- `ast::Type` (typ.rs:22-27); named `DeriveType` because `Type` is a Lean
keyword. -/
inductive DeriveType where
  | BoxedPlateable (x : BoxedPlateableType) : DeriveType
  | Plateable (x : PlateableType) : DeriveType
  | Unplateable : DeriveType

/-- The tail of `Type::parse` after the `while` loop (typ.rs:152-187): reject
parenthesized arguments, drop the wrapper when no generic arguments were
seen, otherwise strip the wrapper's last arguments, and assemble the result.
The `wrapper_path.clone().expect("")` panic is modelled by `none` (it is
unreachable: `wrapper_path` is always `Some` when `any_args` is true). -/
def finishParse (basePath : List SynSeg) (wrapperPath : Option (List SynSeg))
    (boxType : Option BoxType) (anyArgs : Bool) : Except String DeriveType :=
  let wrapper : Option (List SynSeg) :=
    if !anyArgs then none
    else
      match wrapperPath with
      | none => none
      | some wp => some (stripLastArguments wp)
  let plateableTyp : PlateableType := ⟨wrapper, basePath⟩
  match boxType with
  | some bt => .ok (DeriveType.BoxedPlateable ⟨plateableTyp, bt⟩)
  | none => .ok (DeriveType.Plateable plateableTyp)

/-- The `while let AngleBracketed(args) = base_path.segments.last().arguments`
loop of `Type::parse` (typ.rs:99-150), with fuel (the loop peels one level of
generic nesting per iteration, so any fuel larger than the nesting depth of
the input type is enough; fuel exhaustion cannot occur for the finite types
`syn` produces).  Each iteration sets `any_args := true`, requires exactly
one generic argument which must itself be a path, steps into it, and — if the
path just stepped into is a `Box` — either reports nested boxes or records
the box, resets `any_args`, and remembers the wrapper. -/
def parseLoop : Nat → List SynSeg → Option (List SynSeg) → Option BoxType → Bool →
    Except String DeriveType
  | 0, _, _, _, _ => .error "out of fuel"
  | fuel + 1, basePath, wrapperPath, boxType, anyArgs =>
    match lastArguments basePath with
    | none => .error "panic: empty type path"
    | some SynPathArguments.noArgs =>
      finishParse basePath wrapperPath boxType anyArgs
    | some SynPathArguments.parenthesized =>
      .error "Biplate: expected no type arguments here."
    | some (SynPathArguments.angleBracketed args) =>
      match args with
      | [SynGenericArgument.typeArg (SynType.path segs2)] =>
        if boxPrefixList.contains (typeStr segs2) then
          match boxType with
          | some _ => .error "Biplate: nested Box<> is not supported."
          | none => parseLoop fuel segs2 (some segs2) (some BoxType.box) false
        else
          parseLoop fuel segs2 wrapperPath boxType true
      | [SynGenericArgument.typeArg _] => .error "Biplate: expected type argument here"
      | [SynGenericArgument.otherArg] => .error "Biplate: expected type argument here"
      | _ =>
        .error ("Biplate: expected one generic argument here, got " ++ toString args.length)

/-- `Type::parse` (typ.rs:58-187).  A non-path type is immediately accepted
as `Unplateable` (typ.rs:61-63).  For a path, the outermost-box special case
(typ.rs:79-97) runs first — `panic!()` on a box without angle-bracketed
arguments and `expect` on an empty argument list are modelled as errors —
then the peeling loop. -/
def parseTyp (fuel : Nat) (t : SynType) : Except String DeriveType :=
  match t with
  | SynType.path segs =>
    if boxPrefixList.contains (typeStr segs) then
      match lastArguments segs with
      | some (SynPathArguments.angleBracketed args) =>
        match args.head? with
        | none => .error "panic: expected a type argument"
        | some (SynGenericArgument.typeArg (SynType.path segs2)) =>
          parseLoop fuel segs2 (some segs) (some BoxType.box) false
        | some _ => .error "Biplate: expected type argument here"
      | _ => .error "panic: expected angle-bracketed arguments"
    else
      parseLoop fuel segs (some segs) none false
  | _ => .ok DeriveType.Unplateable

/-- The path `i32`. -/
def i32Path : List SynSeg := [SynSeg.mk "i32" SynPathArguments.noArgs]

/-- `Box<inner>` as a syn type. -/
def boxOf (inner : SynType) : SynType :=
  SynType.path
    [SynSeg.mk "Box" (SynPathArguments.angleBracketed [SynGenericArgument.typeArg inner])]

/-- `Box<Box<i32>>`. -/
def boxBoxI32 : SynType := boxOf (boxOf (SynType.path i32Path))

/-- `Box<Box<Box<i32>>>`. -/
def boxBoxBoxI32 : SynType := boxOf boxBoxI32

/-- `&i32`. -/
def refI32 : SynType := SynType.reference (SynType.path i32Path)

/-!  ## Lemmas about `Tree` -/

mutual

theorem Tree.flattenAcc_eq {α : Type} :
    ∀ (t : Tree α) (xs : List α), t.flattenAcc xs = xs ++ t.flattenAcc []
  | .Zero, xs => by simp [Tree.flattenAcc]
  | .One x, xs => by simp [Tree.flattenAcc]
  | .Many ts, xs => by
    simp only [Tree.flattenAcc]
    exact Tree.flattenAccList_eq ts xs

theorem Tree.flattenAccList_eq {α : Type} :
    ∀ (ts : List (Tree α)) (xs : List α),
      Tree.flattenAccList ts xs = xs ++ Tree.flattenAccList ts []
  | [], xs => by simp [Tree.flattenAccList]
  | t :: ts, xs => by
    simp only [Tree.flattenAccList]
    rw [Tree.flattenAccList_eq ts (Tree.flattenAcc t xs), Tree.flattenAcc_eq t xs,
      Tree.flattenAccList_eq ts (Tree.flattenAcc t []), List.append_assoc]

end

mutual

theorem Tree.recons_flatten {α : Type} :
    ∀ (t : Tree α) (rest : List α), t.recons (t.flattenAcc [] ++ rest) = some (t, rest)
  | .Zero, rest => by simp [Tree.flattenAcc, Tree.recons]
  | .One x, rest => by simp [Tree.flattenAcc, Tree.recons]
  | .Many ts, rest => by
    simp only [Tree.flattenAcc, Tree.recons]
    rw [Tree.reconsList_flatten ts rest]
    rfl

theorem Tree.reconsList_flatten {α : Type} :
    ∀ (ts : List (Tree α)) (rest : List α),
      Tree.reconsList ts (Tree.flattenAccList ts [] ++ rest) = some (ts, rest)
  | [], rest => by simp [Tree.flattenAccList, Tree.reconsList]
  | t :: ts, rest => by
    simp only [Tree.flattenAccList, Tree.reconsList]
    rw [Tree.flattenAccList_eq ts (Tree.flattenAcc t []), List.append_assoc,
      Tree.recons_flatten t (Tree.flattenAccList ts [] ++ rest)]
    simp only [Option.some_bind]
    rw [Tree.reconsList_flatten ts rest]
    rfl

end

/-- The rebuild closure of `Tree::list`, applied to the unchanged flattened
sequence, returns the original tree. -/
theorem Tree.rebuild_flatten {α : Type} (t : Tree α) :
    (t.list).snd (t.list).fst = some t := by
  show (t.recons (t.flattenAcc [])).map Prod.fst = some t
  have h := Tree.recons_flatten t []
  rw [List.append_nil] at h
  rw [h]
  rfl

mutual

theorem Tree.recons_isSome {α : Type} :
    ∀ (t : Tree α) (xs : List α), (t.flattenAcc []).length ≤ xs.length →
      ∃ t1, t.recons xs = some (t1, xs.drop (t.flattenAcc []).length)
  | .Zero, xs, _ => by simp [Tree.flattenAcc, Tree.recons]
  | .One x, xs, h => by
    match xs with
    | [] => simp [Tree.flattenAcc] at h
    | y :: ys => simp [Tree.flattenAcc, Tree.recons]
  | .Many ts, xs, h => by
    simp only [Tree.flattenAcc] at h ⊢
    obtain ⟨ts1, hts⟩ := Tree.reconsList_isSome ts xs h
    exact ⟨.Many ts1, by rw [Tree.recons, hts]; rfl⟩

theorem Tree.reconsList_isSome {α : Type} :
    ∀ (ts : List (Tree α)) (xs : List α),
      (Tree.flattenAccList ts []).length ≤ xs.length →
      ∃ ts1, Tree.reconsList ts xs = some (ts1, xs.drop (Tree.flattenAccList ts []).length)
  | [], xs, _ => by simp [Tree.flattenAccList, Tree.reconsList]
  | t :: ts, xs, h => by
    have hsplit : (Tree.flattenAccList (t :: ts) []).length
        = (t.flattenAcc []).length + (Tree.flattenAccList ts []).length := by
      simp only [Tree.flattenAccList]
      rw [Tree.flattenAccList_eq ts (t.flattenAcc [])]
      simp
    have h1 : (t.flattenAcc []).length ≤ xs.length := by omega
    obtain ⟨t1, ht1⟩ := Tree.recons_isSome t xs h1
    have h2 : (Tree.flattenAccList ts []).length ≤ (xs.drop (t.flattenAcc []).length).length := by
      rw [List.length_drop]; omega
    obtain ⟨ts1, hts1⟩ := Tree.reconsList_isSome ts (xs.drop (t.flattenAcc []).length) h2
    refine ⟨t1 :: ts1, ?_⟩
    have hdd : (xs.drop (t.flattenAcc []).length).drop (Tree.flattenAccList ts []).length
        = xs.drop (Tree.flattenAccList (t :: ts) []).length := by
      rw [List.drop_drop, hsplit]
    rw [Tree.reconsList, ht1]
    simp only [Option.some_bind]
    rw [hts1, hdd]
    rfl

end

mutual

theorem Tree.recons_eq_none {α : Type} :
    ∀ (t : Tree α) (xs : List α), xs.length < (t.flattenAcc []).length →
      t.recons xs = none
  | .Zero, xs, h => by simp [Tree.flattenAcc] at h
  | .One x, xs, h => by
    match xs with
    | [] => simp [Tree.recons]
    | y :: ys => simp [Tree.flattenAcc] at h
  | .Many ts, xs, h => by
    simp only [Tree.flattenAcc] at h
    rw [Tree.recons, Tree.reconsList_eq_none ts xs h]
    rfl

theorem Tree.reconsList_eq_none {α : Type} :
    ∀ (ts : List (Tree α)) (xs : List α),
      xs.length < (Tree.flattenAccList ts []).length →
      Tree.reconsList ts xs = none
  | [], xs, h => by simp [Tree.flattenAccList] at h
  | t :: ts, xs, h => by
    have hsplit : (Tree.flattenAccList (t :: ts) []).length
        = (t.flattenAcc []).length + (Tree.flattenAccList ts []).length := by
      simp only [Tree.flattenAccList]
      rw [Tree.flattenAccList_eq ts (t.flattenAcc [])]
      simp
    rw [hsplit] at h
    by_cases h1 : (t.flattenAcc []).length ≤ xs.length
    · obtain ⟨t1, ht1⟩ := Tree.recons_isSome t xs h1
      have h2 : (xs.drop (t.flattenAcc []).length).length
          < (Tree.flattenAccList ts []).length := by
        rw [List.length_drop]; omega
      rw [Tree.reconsList, ht1]
      simp only [Option.some_bind]
      rw [Tree.reconsList_eq_none ts _ h2]
      rfl
    · rw [Tree.reconsList, Tree.recons_eq_none t xs (by omega)]
      rfl

end

/-!  ## Lemmas about the generic traversal operations

Throughout, `hw` says that the node-count function `w` is coherent with the
traversal primitive `up`: every node weighs one more than the sum of its
children's weights. -/

theorem wsize_pos (up : α → Tree α × (Tree α → α)) (w : α → Nat)
    (hw : ∀ n, w n = 1 + ((children up n).map w).sum) (n : α) : 0 < w n := by
  rw [hw]
  omega

theorem wsize_child_lt (up : α → Tree α × (Tree α → α)) (w : α → Nat)
    (hw : ∀ n, w n = 1 + ((children up n).map w).sum) {n c : α}
    (hc : c ∈ children up n) : w c < w n := by
  have hle : w c ≤ ((children up n).map w).sum :=
    List.single_le_sum (fun x _ => Nat.zero_le x) _ (List.mem_map_of_mem w hc)
  rw [hw n]
  omega

theorem universeF_congr (up : α → Tree α × (Tree α → α)) (w : α → Nat)
    (hw : ∀ n, w n = 1 + ((children up n).map w).sum) :
    ∀ (f1 f2 : Nat) (n : α), w n ≤ f1 → w n ≤ f2 →
      universeF up f1 n = universeF up f2 n := by
  intro f1
  induction f1 with
  | zero =>
    intro f2 n h1 _
    exact absurd h1 (by have := wsize_pos up w hw n; omega)
  | succ a ih =>
    intro f2 n h1 h2
    match f2 with
    | 0 => exact absurd h2 (by have := wsize_pos up w hw n; omega)
    | b + 1 =>
      simp only [universeF]
      congr 1
      apply congrArg List.flatten
      apply List.map_congr_left
      intro c hc
      have hlt := wsize_child_lt up w hw hc
      exact ih b c (by omega) (by omega)

theorem universeF_length (up : α → Tree α × (Tree α → α)) (w : α → Nat)
    (hw : ∀ n, w n = 1 + ((children up n).map w).sum) :
    ∀ (fuel : Nat) (n : α), w n ≤ fuel → (universeF up fuel n).length = w n := by
  intro fuel
  induction fuel with
  | zero =>
    intro n h
    exact absurd h (by have := wsize_pos up w hw n; omega)
  | succ a ih =>
    intro n h
    simp only [universeF, List.length_cons, List.length_flatten, List.map_map]
    have hmap : (children up n).map (List.length ∘ universeF up a) = (children up n).map w :=
      List.map_congr_left fun c hc => by
        have := wsize_child_lt up w hw hc
        exact ih c (by omega)
    rw [hmap, hw n]
    omega

theorem univAt_unfold (up : α → Tree α × (Tree α → α)) (w : α → Nat)
    (hw : ∀ n, w n = 1 + ((children up n).map w).sum) (n : α) :
    univAt up w n = n :: ((children up n).map (univAt up w)).flatten := by
  obtain ⟨a, ha⟩ : ∃ a, w n = a + 1 :=
    ⟨w n - 1, by have := wsize_pos up w hw n; omega⟩
  show universeF up (w n) n = _
  rw [ha]
  simp only [universeF]
  congr 1
  apply congrArg List.flatten
  apply List.map_congr_left
  intro c hc
  have hlt := wsize_child_lt up w hw hc
  exact universeF_congr up w hw a (w c) c (by omega) (by omega)

theorem univAt_length (up : α → Tree α × (Tree α → α)) (w : α → Nat)
    (hw : ∀ n, w n = 1 + ((children up n).map w).sum) (n : α) :
    (univAt up w n).length = w n :=
  universeF_length up w hw (w n) n (Nat.le_refl _)

/-!  ## Lemmas about the zipper and the context iterator -/

theorem contextsF_done (up : α → Tree α × (Tree α → α)) (fuel : Nat) (z : Zipper α) :
    contextsF up fuel ⟨z, true⟩ = [] := by
  cases fuel with
  | zero => rfl
  | succ a => rfl

/-- A well-formed segment's rebuild closure succeeds on any sibling list of
the stored length. -/
theorem SegWf.rebuild_isSome {seg : PathSegment α} (hseg : SegWf seg)
    (xs : List α) (hlen : xs.length = seg.left.length + (1 + seg.right.length)) :
    ∃ tr, seg.rebuildTree xs = some tr := by
  obtain ⟨t0, hreb, hcount⟩ := hseg
  obtain ⟨t1, ht1⟩ := Tree.recons_isSome t0 xs (by
    change ((t0.list).fst).length ≤ xs.length at *
    omega)
  refine ⟨t1, ?_⟩
  rw [hreb]
  show (t0.recons xs).map Prod.fst = some t1
  rw [ht1]
  rfl

theorem upRight_pathWf :
    ∀ (path : List (PathSegment α)) (f : α) (z : Zipper α), PathWf path →
      Zipper.upRight f path = some z → PathWf z.path := by
  intro path
  induction path with
  | nil => intro f z _ h; exact absurd h (by simp [Zipper.upRight])
  | cons seg rest ih =>
    intro f z hwf h
    have hseg := hwf seg (List.mem_cons_self seg rest)
    have hrest : PathWf rest := fun s hs => hwf s (List.mem_cons_of_mem seg hs)
    rw [Zipper.upRight] at h
    cases hr : seg.right with
    | cons r rs =>
      rw [hr] at h
      simp only [Option.some.injEq] at h
      subst h
      intro s hs
      rcases List.mem_cons.mp hs with hs | hs
      · subst hs
        obtain ⟨t0, hreb, hcount⟩ := hseg
        refine ⟨t0, hreb, ?_⟩
        rw [hr] at hcount
        simp at hcount ⊢
        omega
      · exact hrest s hs
    | nil =>
      rw [hr] at h
      obtain ⟨tr, htr⟩ := hseg.rebuild_isSome (seg.left ++ [f] ++ seg.right) (by
        rw [hr]; simp)
      rw [hr] at htr
      rw [htr] at h
      exact ih (seg.ctx tr) z hrest h

theorem upRight_goToTop :
    ∀ (path : List (PathSegment α)) (f : α) (z : Zipper α), PathWf path →
      Zipper.upRight f path = some z →
      Zipper.goToTopAux z.focus z.path = Zipper.goToTopAux f path := by
  intro path
  induction path with
  | nil => intro f z _ h; exact absurd h (by simp [Zipper.upRight])
  | cons seg rest ih =>
    intro f z hwf h
    have hseg := hwf seg (List.mem_cons_self seg rest)
    have hrest : PathWf rest := fun s hs => hwf s (List.mem_cons_of_mem seg hs)
    rw [Zipper.upRight] at h
    cases hr : seg.right with
    | cons r rs =>
      rw [hr] at h
      simp only [Option.some.injEq] at h
      subst h
      obtain ⟨tr, htr⟩ := hseg.rebuild_isSome (seg.left ++ [f] ++ seg.right) (by
        rw [hr]; simp; omega)
      have hlist : (seg.left ++ [f]) ++ [r] ++ rs = seg.left ++ [f] ++ seg.right := by
        rw [hr]; simp
      simp only [Zipper.goToTopAux, hlist]
      rw [htr]
    | nil =>
      rw [hr] at h
      obtain ⟨tr, htr⟩ := hseg.rebuild_isSome (seg.left ++ [f] ++ seg.right) (by
        rw [hr]; simp)
      rw [hr] at htr
      rw [htr] at h
      have := ih (seg.ctx tr) z hrest h
      rw [this]
      show _ = Zipper.goToTopAux f (seg :: rest)
      simp only [Zipper.goToTopAux]
      rw [hr, htr]

theorem upRight_pathYield_none (up : α → Tree α × (Tree α → α)) (w : α → Nat) :
    ∀ (path : List (PathSegment α)) (f : α), PathWf path →
      Zipper.upRight f path = none → pathYield up w path = [] := by
  intro path
  induction path with
  | nil => intro f _ _; rfl
  | cons seg rest ih =>
    intro f hwf h
    have hseg := hwf seg (List.mem_cons_self seg rest)
    have hrest : PathWf rest := fun s hs => hwf s (List.mem_cons_of_mem seg hs)
    rw [Zipper.upRight] at h
    cases hr : seg.right with
    | cons r rs => rw [hr] at h; simp at h
    | nil =>
      rw [hr] at h
      obtain ⟨tr, htr⟩ := hseg.rebuild_isSome (seg.left ++ [f] ++ seg.right) (by
        rw [hr]; simp)
      rw [hr] at htr
      rw [htr] at h
      have hrec := ih (seg.ctx tr) hrest h
      simp only [pathYield, List.map_cons, List.flatten_cons] at hrec ⊢
      rw [hr]
      simpa using hrec

theorem upRight_pathYield_some (up : α → Tree α × (Tree α → α)) (w : α → Nat) :
    ∀ (path : List (PathSegment α)) (f : α) (z : Zipper α), PathWf path →
      Zipper.upRight f path = some z →
      univAt up w z.focus ++ pathYield up w z.path = pathYield up w path := by
  intro path
  induction path with
  | nil => intro f z _ h; exact absurd h (by simp [Zipper.upRight])
  | cons seg rest ih =>
    intro f z hwf h
    have hseg := hwf seg (List.mem_cons_self seg rest)
    have hrest : PathWf rest := fun s hs => hwf s (List.mem_cons_of_mem seg hs)
    rw [Zipper.upRight] at h
    cases hr : seg.right with
    | cons r rs =>
      rw [hr] at h
      simp only [Option.some.injEq] at h
      subst h
      simp only [pathYield, List.map_cons, List.flatten_cons]
      rw [hr]
      simp [List.append_assoc]
    | nil =>
      rw [hr] at h
      obtain ⟨tr, htr⟩ := hseg.rebuild_isSome (seg.left ++ [f] ++ seg.right) (by
        rw [hr]; simp)
      rw [hr] at htr
      rw [htr] at h
      have hrec := ih (seg.ctx tr) z hrest h
      rw [hrec]
      simp only [pathYield, List.map_cons, List.flatten_cons]
      rw [hr]
      simp

/-- Unfolding of `ContextIter.next` on a not-done iterator. -/
theorem ContextIter.next_false (up : α → Tree α × (Tree α → α)) (z : Zipper α) :
    ContextIter.next up ⟨z, false⟩
      = match Zipper.goDown up z with
        | some z' =>
          some ((z.focus, fun x => Zipper.goToTopAux x z.path), ⟨z', false⟩)
        | none =>
          match Zipper.upRight z.focus z.path with
          | some z' =>
            some ((z.focus, fun x => Zipper.goToTopAux x z.path), ⟨z', false⟩)
          | none =>
            some ((z.focus, fun x => Zipper.goToTopAux x z.path), ⟨z, true⟩) := rfl

/-- Main invariant for the context iterator: from any well-formed state, the
first components of the yielded pairs are the universe of the focus followed
by the universes of all pending right siblings. -/
theorem contextsF_map_fst (up : α → Tree α × (Tree α → α)) (w : α → Nat)
    (hw : ∀ n, w n = 1 + ((children up n).map w).sum) :
    ∀ (fuel : Nat) (f : α) (path : List (PathSegment α)), PathWf path →
      (univAt up w f ++ pathYield up w path).length ≤ fuel →
      (contextsF up fuel ⟨⟨f, path⟩, false⟩).map Prod.fst
        = univAt up w f ++ pathYield up w path := by
  intro fuel
  induction fuel with
  | zero =>
    intro f path _ hlen
    have h1 : (univAt up w f).length = w f := univAt_length up w hw f
    have h2 := wsize_pos up w hw f
    simp only [List.length_append] at hlen
    omega
  | succ a ih =>
    intro f path hwf hlen
    cases hc : ((up f).fst.list).fst with
    | cons c cs =>
      have huniv : univAt up w f
          = f :: (univAt up w c ++ (cs.map (univAt up w)).flatten) := by
        rw [univAt_unfold up w hw f]
        simp only [children]
        rw [hc]
        simp
      have hwf' : PathWf
          ({ left := [], right := cs, rebuildTree := ((up f).fst.list).snd,
             ctx := (up f).snd } :: path) := by
        intro s hs
        rcases List.mem_cons.mp hs with hs | hs
        · subst hs
          refine ⟨(up f).fst, rfl, ?_⟩
          simp [hc]
          omega
        · exact hwf s hs
      have hih := ih c
        ({ left := [], right := cs, rebuildTree := ((up f).fst.list).snd,
           ctx := (up f).snd } :: path) hwf' (by
          rw [huniv] at hlen
          simp only [pathYield, List.map_cons, List.flatten_cons,
            List.length_append, List.length_cons] at hlen ⊢
          omega)
      have hdown : Zipper.goDown up ⟨f, path⟩ = some
          ⟨c, { left := [], right := cs, rebuildTree := ((up f).fst.list).snd,
                ctx := (up f).snd } :: path⟩ := by
        simp only [Zipper.goDown]
        rw [hc]
      simp only [contextsF, ContextIter.next_false, hdown, List.map_cons]
      rw [hih, huniv]
      simp only [pathYield, List.map_cons, List.flatten_cons, List.cons_append,
        List.append_assoc]
    | nil =>
      have huniv : univAt up w f = [f] := by
        rw [univAt_unfold up w hw f]
        simp only [children]
        rw [hc]
        simp
      have hdown : Zipper.goDown up ⟨f, path⟩ = none := by
        simp only [Zipper.goDown]
        rw [hc]
      cases hu : Zipper.upRight f path with
      | none =>
        have hy := upRight_pathYield_none up w path f hwf hu
        simp only [contextsF, ContextIter.next_false, hdown, hu, contextsF_done,
          List.map_cons, List.map_nil]
        rw [huniv, hy]
        rfl
      | some z =>
        have hy := upRight_pathYield_some up w path f z hwf hu
        have hwfz := upRight_pathWf path f z hwf hu
        have hih := ih z.focus z.path hwfz (by
          have hlen2 : (univAt up w z.focus ++ pathYield up w z.path).length
              = (pathYield up w path).length := by rw [hy]
          rw [huniv] at hlen
          simp only [List.length_append, List.length_cons, List.length_nil] at hlen hlen2 ⊢
          omega)
        have hz : z = ⟨z.focus, z.path⟩ := rfl
        simp only [contextsF, ContextIter.next_false, hdown, hu, List.map_cons]
        rw [hz, hih, hy, huniv]
        rfl

/-- Main invariant for the context isomorphism: from any well-formed state
whose (unchanged) rebuild-to-top produces `t`, every yielded pair rebuilds
to `t` when its replace function is applied to its own node. -/
theorem contextsF_replace (up : α → Tree α × (Tree α → α))
    (hid : ∀ n, (up n).snd (up n).fst = n) :
    ∀ (fuel : Nat) (f : α) (path : List (PathSegment α)) (t : α), PathWf path →
      Zipper.goToTopAux f path = t →
      ∀ p ∈ contextsF up fuel ⟨⟨f, path⟩, false⟩, p.snd p.fst = t := by
  intro fuel
  induction fuel with
  | zero => intro f path t _ _ p hp; simp [contextsF] at hp
  | succ a ih =>
    intro f path t hwf htop p hp
    cases hc : ((up f).fst.list).fst with
    | cons c cs =>
      have hdown : Zipper.goDown up ⟨f, path⟩ = some
          ⟨c, { left := [], right := cs, rebuildTree := ((up f).fst.list).snd,
                ctx := (up f).snd } :: path⟩ := by
        simp only [Zipper.goDown]
        rw [hc]
      simp only [contextsF, ContextIter.next_false, hdown] at hp
      rcases List.mem_cons.mp hp with hp | hp
      · subst hp
        exact htop
      · have hwf' : PathWf
            ({ left := [], right := cs, rebuildTree := ((up f).fst.list).snd,
               ctx := (up f).snd } :: path) := by
          intro s hs
          rcases List.mem_cons.mp hs with hs | hs
          · subst hs
            refine ⟨(up f).fst, rfl, ?_⟩
            simp [hc]
            omega
          · exact hwf s hs
        have htop' : Zipper.goToTopAux c
            ({ left := [], right := cs, rebuildTree := ((up f).fst.list).snd,
               ctx := (up f).snd } :: path) = t := by
          simp only [Zipper.goToTopAux, List.nil_append, List.singleton_append]
          have hflat : c :: cs = ((up f).fst.list).fst := hc.symm
          rw [hflat, Tree.rebuild_flatten]
          show Zipper.goToTopAux ((up f).snd (up f).fst) path = t
          rw [hid f]
          exact htop
        exact ih c _ t hwf' htop' p hp
    | nil =>
      have hdown : Zipper.goDown up ⟨f, path⟩ = none := by
        simp only [Zipper.goDown]
        rw [hc]
      cases hu : Zipper.upRight f path with
      | none =>
        simp only [contextsF, ContextIter.next_false, hdown, hu, contextsF_done] at hp
        rcases List.mem_cons.mp hp with hp | hp
        · subst hp
          exact htop
        · simp at hp
      | some z =>
        simp only [contextsF, ContextIter.next_false, hdown, hu] at hp
        rcases List.mem_cons.mp hp with hp | hp
        · subst hp
          exact htop
        · have hwfz := upRight_pathWf path f z hwf hu
          have htopz : Zipper.goToTopAux z.focus z.path = t := by
            rw [upRight_goToTop path f z hwf hu]
            exact htop
          have hz : z = ⟨z.focus, z.path⟩ := rfl
          rw [hz] at hp
          exact ih z.focus z.path t hwfz htopz p hp


/-!  ## Lemmas about the concrete `RTree` instance -/

theorem flattenAccList_ones (cs : List α) :
    ∀ xs, Tree.flattenAccList (cs.map Tree.One) xs = xs ++ cs := by
  induction cs with
  | nil => intro xs; simp [Tree.flattenAccList]
  | cons c cs ih =>
    intro xs
    simp only [List.map_cons, Tree.flattenAccList, Tree.flattenAcc]
    rw [ih (xs ++ [c])]
    simp

theorem rt_children (v : Int) (cs : List RTree) :
    children rtUp (RTree.node v cs) = cs := by
  cases cs with
  | nil => rfl
  | cons c cs' =>
    show ((Tree.Many [vecSelfBiplateTree (c :: cs')]).list).fst = c :: cs'
    simp only [vecSelfBiplateTree, Tree.list, Tree.flattenAcc, Tree.flattenAccList]
    rw [flattenAccList_ones]
    rfl

theorem rt_sizeList_eq (cs : List RTree) :
    RTree.sizeList cs = (cs.map RTree.size).sum := by
  induction cs with
  | nil => rfl
  | cons c cs ih => simp [RTree.sizeList, ih]

/-- `RTree.size` is coherent with the derived uniplate: the hypothesis `hw`
of the generic lemmas, discharged for the concrete instance. -/
theorem rt_wsize_spec :
    ∀ n : RTree, RTree.size n = 1 + ((children rtUp n).map RTree.size).sum := by
  intro n
  cases n with
  | node v cs => rw [rt_children, RTree.size, rt_sizeList_eq]

/-- The derived uniplate of `RTree` satisfies the reconstruction identity
law. -/
theorem rtUp_id : ∀ n : RTree, (rtUp n).snd (rtUp n).fst = n := by
  intro n
  cases n with
  | node v cs =>
    cases cs with
    | nil => rfl
    | cons c cs' =>
      show RTree.node v (vecSelfBiplateCtx (c :: cs') (vecSelfBiplateTree (c :: cs')))
          = RTree.node v (c :: cs')
      simp only [vecSelfBiplateTree, vecSelfBiplateCtx]
      congr 1
      have hmap : ∀ l : List RTree,
          (l.map Tree.One).map
              (fun x => match x with | Tree.One c => c | _ => RTree.node 0 []) = l := by
        intro l
        induction l with
        | nil => rfl
        | cons a l ih => simp only [List.map_cons, ih]
      exact hmap (c :: cs')

/-!  ## The claims -/

/-- C1: flatten-then-rebuild round trip.  For every ShapeTree `S`, calling
`S.list()` and applying the returned rebuild closure to the returned
flattened sequence, unchanged, yields a tree equal to `S` (the rebuild
closure's panic possibility is modelled by `Option`, so success is `some`). -/
theorem tree_list_roundtrip {α : Type} (t : Tree α) :
    (t.list).snd (t.list).fst = some t :=
  Tree.rebuild_flatten t

theorem withChildren_self (up : α → Tree α × (Tree α → α)) (n : α)
    (h : (up n).snd (up n).fst = n) :
    withChildren up n (children up n) = some n := by
  show withChildren up n ((up n).fst.list).fst = some n
  rw [withChildren]
  simp only [ne_eq, not_true_eq_false, if_false, ite_false]
  rw [Tree.rebuild_flatten]
  simp only [Option.map_some']
  rw [h]

theorem withChildrenBi_self (bp : α → Tree β × (Tree β → α)) (n : α)
    (h : (bp n).snd (bp n).fst = n) :
    withChildrenBi bp n (childrenBi bp n) = some n := by
  show withChildrenBi bp n ((bp n).fst.list).fst = some n
  rw [withChildrenBi]
  simp only [ne_eq, not_true_eq_false, if_false, ite_false]
  rw [Tree.rebuild_flatten]
  simp only [Option.map_some']
  rw [h]

/-- C2: reconstruction identity law.  For every node `n` whose traversal
primitive satisfies the identity law, `with_children(n, children(n)) == n`,
and likewise `with_children_bi(n, children_bi(n)) == n` for every
destination-type instance satisfying the law. -/
theorem with_children_identity (up : α → Tree α × (Tree α → α))
    (bp : α → Tree β × (Tree β → α)) (n : α)
    (hu : (up n).snd (up n).fst = n) (hb : (bp n).snd (bp n).fst = n) :
    withChildren up n (children up n) = some n
      ∧ withChildrenBi bp n (childrenBi bp n) = some n :=
  ⟨withChildren_self up n hu, withChildrenBi_self bp n hb⟩

theorem with_children_identity_witness :
    ((unplateableUniplate (5 : Int)).snd (unplateableUniplate (5 : Int)).fst = 5)
      ∧ ((unplateableBiplate (5 : Int)).snd (unplateableBiplate (5 : Int)).fst = 5)
      ∧ withChildren unplateableUniplate (5 : Int) (children unplateableUniplate 5) = some 5
      ∧ withChildrenBi unplateableBiplate (5 : Int) (childrenBi unplateableBiplate 5) = some 5 :=
  ⟨rfl, rfl,
    (with_children_identity unplateableUniplate unplateableBiplate (5 : Int) rfl rfl).1,
    (with_children_identity unplateableUniplate unplateableBiplate (5 : Int) rfl rfl).2⟩

/-- C3: context/cursor equivalence.  For every tree `t` (over a traversal
primitive with a coherent node count `w`) and any fuel covering `t`'s node
count, the first components yielded by the cursor-based `contexts(t)` equal
`universe(t)`. -/
theorem contexts_firsts_eq_universe (up : α → Tree α × (Tree α → α)) (w : α → Nat)
    (hw : ∀ n, w n = 1 + ((children up n).map w).sum) (t : α) (fuel : Nat)
    (hf : w t ≤ fuel) :
    (contextsF up fuel (ContextIter.new t)).map Prod.fst = universeF up fuel t := by
  have hwf : PathWf ([] : List (PathSegment α)) := by intro s hs; simp at hs
  have hmain := contextsF_map_fst up w hw fuel t [] hwf (by
    simp only [pathYield, List.map_nil, List.flatten_nil, List.append_nil]
    rw [univAt_length up w hw]
    exact hf)
  show (contextsF up fuel ⟨⟨t, []⟩, false⟩).map Prod.fst = universeF up fuel t
  rw [hmain]
  simp only [pathYield, List.map_nil, List.flatten_nil, List.append_nil]
  exact universeF_congr up w hw (w t) fuel t (Nat.le_refl _) hf

theorem contexts_firsts_eq_universe_witness :
    RTree.size rt0 ≤ 10
      ∧ (contextsF rtUp 10 (ContextIter.new rt0)).map Prod.fst = universeF rtUp 10 rt0 :=
  ⟨by decide, contexts_firsts_eq_universe rtUp RTree.size rt_wsize_spec rt0 10 (by decide)⟩

/-- C4: context isomorphism.  If the traversal primitive satisfies the
identity law then every pair `(node, replace)` yielded by `contexts(t)`
satisfies `replace(node) == t`. -/
theorem contexts_replace_restores_root (up : α → Tree α × (Tree α → α))
    (hid : ∀ n, (up n).snd (up n).fst = n) (t : α) (fuel : Nat)
    (p : α × (α → α)) (hp : p ∈ contextsF up fuel (ContextIter.new t)) :
    p.snd p.fst = t := by
  have hwf : PathWf ([] : List (PathSegment α)) := by intro s hs; simp at hs
  exact contextsF_replace up hid fuel t [] t hwf rfl p hp

theorem contexts_replace_restores_root_witness :
    ((rt0, fun x => Zipper.goToTopAux x ([] : List (PathSegment RTree)))
        ∈ contextsF rtUp 10 (ContextIter.new rt0))
      ∧ (fun x => Zipper.goToTopAux x ([] : List (PathSegment RTree))) rt0 = rt0 :=
  ⟨List.mem_cons_self _ _,
    contexts_replace_restores_root rtUp rtUp_id rt0 10
      (rt0, fun x => Zipper.goToTopAux x ([] : List (PathSegment RTree)))
      (List.mem_cons_self _ _)⟩

/-- C5: the claim says all three Biplate-to-itself instances return
`Tree::One(v)` with an identity-extraction reconstructor.  This holds for
the derive macro's identity instance and for the dispatch fallback, but the
`derive_unplateable!` instance for leaf types (String and the integer types)
ignores its argument and returns the original value: `with_children_bi` on
such a value cannot replace it (here, replacing `2` by `3` yields `2`),
contradicting the repo's own derive tests which replace `i32` leaves. -/
theorem unplateable_biplate_ignores_replacement :
    withChildrenBi unplateableBiplate (2 : Int) [3] = some 2
      ∧ (unplateableBiplate (2 : Int)).snd (Tree.One 3) = 2
      ∧ (identityBiplate (2 : Int)).snd (Tree.One 3) = 3
      ∧ (spezBiplateSame (2 : Int)).snd (Tree.One 3) = 3 :=
  ⟨rfl, rfl, rfl, rfl⟩

/-- C6 counterexample: `rewrite` does not reach a fixpoint.  With the rule
`exRule` (increment a label below 2), rewriting `node 0 []` yields
`node 1 []`, on whose universe the rule still applies. -/
theorem rewrite_not_fixpoint_cex :
    rewriteF rtUp 2 exRule (RTree.node 0 []) = RTree.node 1 []
      ∧ exRule (RTree.node 1 []) = some (RTree.node 2 [])
      ∧ (universeF rtUp 2 (rewriteF rtUp 2 exRule (RTree.node 0 []))).all
          (fun x => (exRule x).isNone) = false :=
  ⟨rfl, rfl, rfl⟩

/-- C6 amended: `rewrite` is a single bottom-up pass; it equals `transform`
with the rule applied where it succeeds (`f(x).unwrap_or(x)` at each
reconstructed node).  The result of a successful application is not
revisited, so no fixpoint is guaranteed. -/
theorem rewrite_eq_transform_getD (up : α → Tree α × (Tree α → α)) (fuel : Nat)
    (f : α → Option α) (n : α) :
    rewriteF up fuel f n = transformF up fuel (fun x => (f x).getD x) n := by
  induction fuel generalizing n with
  | zero => rfl
  | succ a ih =>
    simp only [rewriteF, transformF]
    have hfun : rewriteF up a f = transformF up a (fun x => (f x).getD x) :=
      funext fun m => ih m
    rw [hfun]
    cases hres : f ((up n).snd (((up n).fst).map (transformF up a fun x => (f x).getD x))) with
    | none => simp [hres]
    | some m => simp [hres]

/-- C7 counterexample: the rebuild closure does not panic on a longer
sequence; given two elements where the flattening had one, it succeeds and
silently drops the extra element. -/
theorem list_rebuild_extra_elements_cex :
    ((Tree.One (0 : Int)).list).snd [1, 2] = some (Tree.One 1) := rfl

/-- C7 amended: the rebuild closure returned by `S.list()` errors (the
modelled panic) exactly when the given sequence is shorter than the
flattened sequence of `S`; on a sequence of equal or greater length it
succeeds, consuming the elements in order and silently ignoring any
extras. -/
theorem list_rebuild_none_iff_short {α : Type} (t : Tree α) (xs : List α) :
    (t.list).snd xs = none ↔ xs.length < ((t.list).fst).length := by
  constructor
  · intro h
    by_contra hcon
    push_neg at hcon
    obtain ⟨t1, ht1⟩ := Tree.recons_isSome t xs hcon
    rw [show (t.list).snd xs = (t.recons xs).map Prod.fst from rfl, ht1] at h
    simp at h
  · intro h
    show (t.recons xs).map Prod.fst = none
    rw [Tree.recons_eq_none t xs h]
    rfl

/-- C8: `go_left` is wrong.  On a parent with children `[rt1, rt2, rt3]` and
the focus on `rt3`, `go_left` moves the focus to the leftmost sibling `rt1`
instead of the adjacent `rt2`, and pushes the old focus to the far end of the
right list, so rebuilding the root yields the permuted `node 0 [rt2, rt1,
rt3]` instead of the original tree. -/
theorem zipper_goLeft_wrong_sibling :
    ((((Zipper.goDown rtUp (Zipper.new rt0)).bind Zipper.goRight).bind Zipper.goRight).bind
          Zipper.goLeft).map Zipper.focus = some rt1
      ∧ ((((Zipper.goDown rtUp (Zipper.new rt0)).bind Zipper.goRight).bind Zipper.goRight).bind
          Zipper.goLeft).map Zipper.rebuildRoot = some (RTree.node 0 [rt2, rt1, rt3])
      ∧ rt1 ≠ rt2
      ∧ RTree.node 0 [rt2, rt1, rt3] ≠ rt0 := by
  refine ⟨rfl, rfl, ?_, ?_⟩
  · intro h
    simp only [rt1, rt2] at h
    injection h with h1 h2
    omega
  · intro h
    simp only [rt0, rt1, rt2, rt3] at h
    injection h with h1 h2
    injection h2 with h3 h4
    injection h3 with h5 h6
    omega

/-- C9 counterexample: a reference field type is not rejected — `Type::parse`
silently classifies it as `Unplateable` — and even a direct `Box<Box<i32>>`
is accepted (as a boxed type with wrapper `Box`), not rejected. -/
theorem parse_reference_not_rejected_cex :
    parseTyp 9 refI32 = .ok DeriveType.Unplateable
      ∧ parseTyp 9 boxBoxI32
          = .ok (DeriveType.BoxedPlateable
              ⟨⟨some [SynSeg.mk "Box" SynPathArguments.noArgs], i32Path⟩, BoxType.box⟩) :=
  ⟨rfl, rfl⟩

/-- C9 amended: every non-path type shape (reference, raw pointer, slice,
function type, trait object, array, inferred) is silently classified as an
unplateable opaque leaf (`Ok(Unplateable)`), not rejected; the nested-box
diagnostic exists but only fires when a `Box` is met while peeling generic
arguments with a box already recorded — e.g. for `Box<Box<Box<i32>>>` — while
a direct `Box<Box<i32>>` is accepted. -/
theorem parse_nonpath_unplateable (t : SynType) (fuel : Nat)
    (h : t.isPathTyp = false) :
    parseTyp fuel t = .ok DeriveType.Unplateable
      ∧ parseTyp 9 boxBoxBoxI32 = .error "Biplate: nested Box<> is not supported." := by
  constructor
  · cases t with
    | path segs => simp [SynType.isPathTyp] at h
    | reference i => rfl
    | rawPointer i => rfl
    | slice i => rfl
    | bareFn => rfl
    | traitObject => rfl
    | array i => rfl
    | infer => rfl
  · rfl

theorem parse_nonpath_unplateable_witness :
    refI32.isPathTyp = false
      ∧ (parseTyp 9 refI32 = .ok DeriveType.Unplateable
          ∧ parseTyp 9 boxBoxBoxI32 = .error "Biplate: nested Box<> is not supported.") :=
  ⟨rfl, parse_nonpath_unplateable refI32 9 rfl⟩

/-- C10: the `Uniplate` instance `derive_iter!` generates for containers
returns `Tree::Zero` with a reconstructor that ignores its argument and
returns a clone of the original container; hence `universe` of a container
yields only the container itself, `descend` is the identity on it, and
`transform` touches it only via the top-level call. -/
theorem container_uniplate_opaque (γ : Type) (v : List γ) (op : List γ → List γ)
    (tr : Tree (List γ)) (fuel : Nat) :
    (vecUniplate v).fst = Tree.Zero
      ∧ (vecUniplate v).snd tr = v
      ∧ universeF vecUniplate (fuel + 1) v = [v]
      ∧ descend vecUniplate op v = v
      ∧ transformF vecUniplate (fuel + 1) op v = op v :=
  ⟨rfl, rfl, rfl, rfl, rfl⟩

end Uniplate
